import Mathlib

/-!
Verification of `scripts/update_readme_date.py`.

Strings are modelled as `List Char` (Python `str` is a sequence of Unicode
code points).  Python's `str.splitlines(keepends=True)` line boundaries and
`str.strip()` whitespace are modelled by the character sets below.  The regex
classes `\s` and `\d` are modelled by Python whitespace and ASCII digits
(`re.IGNORECASE` literal matching is modelled at the ASCII level; all inputs
appearing in the claims use only ASCII characters, where the model agrees
exactly with Python).
-/

/-- The characters Python's `str.splitlines` treats as line boundaries
(besides these, the pair `"\r\n"` is consumed as a single boundary). -/
def isLineBreak (c : Char) : Bool :=
  c.toNat = 10 || c.toNat = 13 || c.toNat = 11 || c.toNat = 12 ||
  c.toNat = 28 || c.toNat = 29 || c.toNat = 30 ||
  c.toNat = 133 || c.toNat = 8232 || c.toNat = 8233

/-- The characters Python's `str.strip()` removes (the `str` whitespace set). -/
def isPySpace (c : Char) : Bool :=
  (9 ≤ c.toNat && c.toNat ≤ 13) || (28 ≤ c.toNat && c.toNat ≤ 31) ||
  c.toNat = 32 || c.toNat = 133 || c.toNat = 160 || c.toNat = 5760 ||
  (8192 ≤ c.toNat && c.toNat ≤ 8202) || c.toNat = 8232 || c.toNat = 8233 ||
  c.toNat = 8239 || c.toNat = 8287 || c.toNat = 12288

/-- ASCII decimal digit, modelling the regex class `\d`. -/
def isAsciiDigit (c : Char) : Bool :=
  48 ≤ c.toNat && c.toNat ≤ 57

/-- ASCII lower-casing, modelling `re.IGNORECASE` on the literal
`"last updated:"` (whose letters are all ASCII). -/
def toLowerAscii (c : Char) : Char :=
  if 65 ≤ c.toNat && c.toNat ≤ 90 then Char.ofNat (c.toNat + 32) else c

/-- `str.strip()`: remove leading and trailing Python whitespace. -/
def strip (s : List Char) : List Char :=
  ((s.dropWhile isPySpace).reverse.dropWhile isPySpace).reverse

/-- Consume a literal pattern case-insensitively (pattern given lowercase);
returns the rest of the input on success. -/
def dropLitCI : List Char → List Char → Option (List Char)
  | [], s => some s
  | _ :: _, [] => none
  | p :: ps, c :: cs => if toLowerAscii c = p then dropLitCI ps cs else none

/-- Consume exactly `n` ASCII digits, modelling the regex `\d{n}`. -/
def dropDigits : Nat → List Char → Option (List Char)
  | 0, s => some s
  | _ + 1, [] => none
  | n + 1, c :: cs => if isAsciiDigit c then dropDigits n cs else none

/-- Consume a literal `'-'`. -/
def dropDash : List Char → Option (List Char)
  | [] => none
  | c :: cs => if c = '-' then some cs else none

/-- `_LAST_UPDATED_PATTERN`: decides whether the regex
`^last updated:\s*\d{4}-\d{2}-\d{2}\s*$` (with `re.IGNORECASE`) matches the
whole string.  Since `\s` and `\d` are disjoint, the greedy readings of the
two `\s*` are exact, so this function is the regex's match semantics. -/
def matchStamp (s : List Char) : Bool :=
  match dropLitCI "last updated:".toList s with
  | none => false
  | some r1 =>
    match dropDigits 4 (r1.dropWhile isPySpace) with
    | none => false
    | some r2 =>
      match dropDash r2 with
      | none => false
      | some r3 =>
        match dropDigits 2 r3 with
        | none => false
        | some r4 =>
          match dropDash r4 with
          | none => false
          | some r5 =>
            match dropDigits 2 r5 with
            | none => false
            | some r6 => (r6.dropWhile isPySpace).isEmpty

/-- The per-line test of the scan loop: `_LAST_UPDATED_PATTERN.match(line.strip())`. -/
def lineMatches (l : List Char) : Bool :=
  matchStamp (strip l)

/-- `_normalize_line`: replace a matched line, keeping a trailing `"\n"`
exactly when the source line ends with one (`line.endswith("\n")`). -/
def normalize_line (line dateStr : List Char) : List Char :=
  "Last updated: ".toList ++ dateStr ++
    (if line.getLast? = some '\n' then ['\n'] else [])

/-- The appended final line `f"Last updated: {date_str}\n"`. -/
def stampLine (dateStr : List Char) : List Char :=
  "Last updated: ".toList ++ dateStr ++ ['\n']

/-- `str.splitlines(keepends=True)`: split at line boundaries, keeping each
boundary with its line; `"\r\n"` counts as one boundary. -/
def splitlines : List Char → List (List Char)
  | [] => []
  | c :: rest =>
    if c = '\r' then
      match rest with
      | '\n' :: rest2 => ['\r', '\n'] :: splitlines rest2
      | r => ['\r'] :: splitlines r
    else if isLineBreak c then
      [c] :: splitlines rest
    else
      match splitlines rest with
      | [] => [[c]]
      | l :: ls => (c :: l) :: ls

/-- The scan loop of `update_readme` (source lines 31-37): build
`updated_lines` and the `replaced` flag. -/
def processLines (dateStr : List Char) : List (List Char) → List (List Char) × Bool
  | [] => ([], false)
  | l :: ls =>
    let r := processLines dateStr ls
    if lineMatches l then (normalize_line l dateStr :: r.1, true)
    else (l :: r.1, r.2)

/-- Source lines 40-42: if the last line does not end with `"\n"`,
append one to it in place. -/
def ensureTrailingLF : List (List Char) → List (List Char)
  | [] => []
  | l :: ls =>
    if ls.isEmpty then [if l.getLast? = some '\n' then l else l ++ ['\n']]
    else l :: ensureTrailingLF ls

/-- The pure content computation of `update_readme` (source lines 27-44):
scan, optionally append the stamp line, and join. -/
def updateContent (original dateStr : List Char) : List Char :=
  let scan := processLines dateStr (splitlines original)
  (if scan.2 then scan.1
   else ensureTrailingLF scan.1 ++ [stampLine dateStr]).flatten

/-- Outcome of one `update_readme` call: the file state after the call
(`none` = the path does not exist), whether `write_text` ran, and the
returned boolean. -/
structure RunResult where
  fileAfter : Option (List Char)
  wrote : Bool
  ret : Bool
  deriving DecidableEq, Repr

/-- `update_readme` (source lines 25-50): read (a missing file reads as
`""`), compute the new content, and write it back only when it differs
from the original; return whether it differed. -/
def update_readme (file : Option (List Char)) (dateStr : List Char) : RunResult :=
  let original := match file with | some s => s | none => []
  let newContent := updateContent original dateStr
  if newContent ≠ original then ⟨some newContent, true, true⟩
  else ⟨file, false, false⟩

/-- Outcome of `main`: exit status, file state after the run, the lines
printed to stdout, and whether `update_readme` was invoked. -/
structure MainResult where
  exitCode : Nat
  fileAfter : Option (List Char)
  stdout : List (List Char)
  ranUpdate : Bool
  deriving DecidableEq, Repr

/-- `main` (source lines 53-78), after argument parsing: with a nonexistent
target, `parser.error` prints a usage message and exits with status 2
before `update_readme` runs; otherwise the update runs, the date is printed
when `--print-date` was given, and the exit status is 0. -/
def mainRun (file : Option (List Char)) (dateStr : List Char) (printDate : Bool) :
    MainResult :=
  match file with
  | none => ⟨2, none, [], false⟩
  | some content =>
    let r := update_readme (some content) dateStr
    ⟨0, r.fileAfter, if printDate then [dateStr] else [], true⟩

/-- A well-formed `YYYY-MM-DD` date string (the §4.1 precondition on
`date_str`). -/
def isWellFormedDate (d : List Char) : Bool :=
  match d with
  | [y1, y2, y3, y4, s1, m1, m2, s2, d1, d2] =>
    isAsciiDigit y1 && isAsciiDigit y2 && isAsciiDigit y3 && isAsciiDigit y4 &&
    decide (s1 = '-') && isAsciiDigit m1 && isAsciiDigit m2 &&
    decide (s2 = '-') && isAsciiDigit d1 && isAsciiDigit d2
  | _ => false

/-- No line-boundary characters at all. -/
def breakFree (l : List Char) : Bool :=
  l.all (fun c => !isLineBreak c)

/-- Every line-boundary character in the string is a plain `'\n'`
(the input class the spec assumes: "only line-feed-terminated lines"). -/
def lfOnly (s : List Char) : Bool :=
  s.all (fun c => !isLineBreak c || c = '\n')

/-- Shape of a non-final line produced by `splitlines` on an LF-only
string: a break-free body followed by `'\n'`. -/
def midOK (l : List Char) : Bool :=
  decide (l.getLast? = some '\n') && breakFree l.dropLast

/-- Shape of the final line: nonempty, break-free except for an optional
trailing `'\n'`. -/
def lastOK (l : List Char) : Bool :=
  !l.isEmpty && breakFree l.dropLast && lfOnly l

/-- Every line is a well-shaped LF line, the last possibly unterminated. -/
def goodLines : List (List Char) → Bool
  | [] => true
  | l :: ls => (if ls.isEmpty then lastOK l else midOK l) && goodLines ls

/-- The per-line action of the scan loop. -/
def replaceLine (dateStr l : List Char) : List Char :=
  if lineMatches l then normalize_line l dateStr else l

lemma splitlines_nil : splitlines [] = [] :=
  splitlines.eq_1

lemma splitlines_crlf (r : List Char) :
    splitlines ('\r' :: '\n' :: r) = ['\r', '\n'] :: splitlines r := by
  rw [splitlines.eq_2, if_pos rfl]

lemma splitlines_cons (c : Char) (r : List Char) (h2 : c ≠ '\r') :
    splitlines (c :: r) =
      if isLineBreak c then [c] :: splitlines r
      else
        match splitlines r with
        | [] => [[c]]
        | l :: ls => (c :: l) :: ls := by
  rcases r with _ | ⟨c2, r2⟩
  · rw [splitlines.eq_3 c [] (by intro rest2 heq; cases heq), if_neg h2]
  · by_cases hc2 : c2 = '\n'
    · subst hc2
      rw [splitlines.eq_2, if_neg h2]
    · rw [splitlines.eq_3 c (c2 :: r2)
        (by intro rest2 heq; injection heq with ha _; exact hc2 ha), if_neg h2]

lemma splitlines_cr (c2 : Char) (r : List Char) (h : c2 ≠ '\n') :
    splitlines ('\r' :: c2 :: r) = ['\r'] :: splitlines (c2 :: r) := by
  rw [splitlines.eq_3 '\r' (c2 :: r)
    (by intro rest2 heq; injection heq with ha _; exact h ha), if_pos rfl]

lemma splitlines_cr_nil : splitlines ['\r'] = [['\r']] := by
  rw [splitlines.eq_3 '\r' [] (by intro rest2 heq; cases heq), if_pos rfl,
    splitlines_nil]

lemma splitlines_break (c : Char) (r : List Char) (h1 : isLineBreak c = true)
    (h2 : c ≠ '\r') : splitlines (c :: r) = [c] :: splitlines r := by
  rw [splitlines_cons c r h2, if_pos h1]

lemma splitlines_lf (r : List Char) :
    splitlines ('\n' :: r) = ['\n'] :: splitlines r :=
  splitlines_break '\n' r (by decide) (by decide)

lemma splitlines_nonbreak (c : Char) (r : List Char) (h : isLineBreak c = false) :
    splitlines (c :: r) =
      (match splitlines r with
       | [] => [[c]]
       | l :: ls => (c :: l) :: ls) := by
  have h2 : c ≠ '\r' := by
    intro e
    subst e
    exact absurd h (by decide)
  rw [splitlines_cons c r h2, if_neg (by simp [h])]

lemma lfOnly_cr_false (rest : List Char) : lfOnly ('\r' :: rest) = false := by
  have h : (!isLineBreak '\r' || decide ('\r' = '\n')) = false := by decide
  rw [lfOnly, List.all_cons, h, Bool.false_and]

lemma splitlines_props : ∀ s : List Char,
    (splitlines s).flatten = s ∧ (∀ l ∈ splitlines s, l ≠ []) ∧
      (lfOnly s = true → goodLines (splitlines s) = true) := by
  have H : ∀ n (s : List Char), s.length ≤ n →
      (splitlines s).flatten = s ∧ (∀ l ∈ splitlines s, l ≠ []) ∧
        (lfOnly s = true → goodLines (splitlines s) = true) := by
    intro n
    induction n with
    | zero =>
      intro s hs
      have hnil : s = [] := List.length_eq_zero.mp (Nat.le_zero.mp hs)
      subst hnil
      simp [splitlines_nil, goodLines]
    | succ n ih =>
      intro s hs
      rcases s with _ | ⟨c, rest⟩
      · simp [splitlines_nil, goodLines]
      · by_cases hc : c = '\r'
        · subst hc
          rcases rest with _ | ⟨c2, r2⟩
          · rw [splitlines_cr_nil]
            refine ⟨rfl, ?_, by intro h; rw [lfOnly_cr_false] at h; cases h⟩
            intro l hl
            simp at hl
            subst hl
            simp
          · by_cases hc2 : c2 = '\n'
            · subst hc2
              rw [splitlines_crlf]
              have hr2 := ih r2 (by simp at hs ⊢; omega)
              refine ⟨?_, ?_, by intro h; rw [lfOnly_cr_false] at h; cases h⟩
              · rw [List.flatten_cons, hr2.1]
                rfl
              · intro l hl
                rcases List.mem_cons.mp hl with h | h
                · subst h
                  simp
                · exact hr2.2.1 l h
            · rw [splitlines_cr c2 r2 hc2]
              have hr := ih (c2 :: r2) (by simp at hs ⊢; omega)
              refine ⟨?_, ?_, by intro h; rw [lfOnly_cr_false] at h; cases h⟩
              · rw [List.flatten_cons, hr.1]
                rfl
              · intro l hl
                rcases List.mem_cons.mp hl with h | h
                · subst h
                  simp
                · exact hr.2.1 l h
        · have hrest := ih rest (by simp at hs; omega)
          by_cases hb : isLineBreak c
          · rw [splitlines_break c rest hb hc]
            refine ⟨?_, ?_, ?_⟩
            · rw [List.flatten_cons, hrest.1]
              rfl
            · intro l hl
              rcases List.mem_cons.mp hl with h | h
              · subst h
                simp
              · exact hrest.2.1 l h
            · intro hlf
              rw [lfOnly, List.all_cons, Bool.and_eq_true] at hlf
              have hcn : c = '\n' := by
                rcases hlf with ⟨h1, _⟩
                rw [hb] at h1
                simpa using h1
              have hlf' : lfOnly rest = true := hlf.2
              subst hcn
              rw [goodLines]
              simp only [Bool.and_eq_true]
              refine ⟨?_, hrest.2.2 hlf'⟩
              split
              · decide
              · decide
          · have hb' : isLineBreak c = false := by
              simpa using hb
            rw [splitlines_nonbreak c rest hb']
            cases e : splitlines rest with
            | nil =>
              have hre : rest = [] := by
                have h1 := hrest.1
                rw [e] at h1
                simpa using h1.symm
              subst hre
              refine ⟨by simp, ?_, ?_⟩
              · intro l hl
                simp at hl
                subst hl
                simp
              · intro _
                simp [goodLines, lastOK, breakFree, lfOnly, List.all_cons, hb']
            | cons l ls =>
              have hlne : l ≠ [] := hrest.2.1 l (by rw [e]; exact List.mem_cons_self l ls)
              refine ⟨?_, ?_, ?_⟩
              · have h1 := hrest.1
                rw [e, List.flatten_cons] at h1
                simp [List.flatten_cons, h1]
              · intro x hx
                rcases List.mem_cons.mp hx with h | h
                · subst h
                  simp
                · exact hrest.2.1 x (by rw [e]; exact List.mem_cons_of_mem l h)
              · intro hlf
                rw [lfOnly, List.all_cons, Bool.and_eq_true] at hlf
                have hlf' : lfOnly rest = true := hlf.2
                have hg := hrest.2.2 hlf'
                rw [e] at hg
                rw [goodLines] at hg ⊢
                simp only [Bool.and_eq_true] at hg ⊢
                refine ⟨?_, hg.2⟩
                have hdl : (c :: l).dropLast = c :: l.dropLast :=
                  List.dropLast_cons_of_ne_nil hlne
                have hgl : (c :: l).getLast? = l.getLast? := by
                  rcases l with _ | ⟨a, l2⟩
                  · exact absurd rfl hlne
                  · exact List.getLast?_cons_cons
                rcases hif : ls.isEmpty with _ | _
                · simp only [hif, Bool.false_eq_true, reduceIte] at hg ⊢
                  rcases hg with ⟨hm, _⟩
                  simp only [midOK, Bool.and_eq_true, decide_eq_true_eq] at hm ⊢
                  refine ⟨by rw [hgl]; exact hm.1, ?_⟩
                  rw [hdl]
                  simp only [breakFree, List.all_cons, Bool.and_eq_true]
                  constructor
                  · simp [hb']
                  · have := hm.2
                    simpa [breakFree] using this
                · simp only [hif, reduceIte] at hg ⊢
                  rcases hg with ⟨hm, _⟩
                  simp only [lastOK, Bool.and_eq_true] at hm ⊢
                  refine ⟨⟨by simp, ?_⟩, ?_⟩
                  · rw [hdl]
                    simp only [breakFree, List.all_cons, Bool.and_eq_true]
                    constructor
                    · simp [hb']
                    · have := hm.1.2
                      simpa [breakFree] using this
                  · simp only [lfOnly, List.all_cons, Bool.and_eq_true]
                    constructor
                    · simp [hb']
                    · have := hm.2
                      simpa [lfOnly] using this
  exact fun s => H s.length s le_rfl

lemma splitlines_flatten (s : List Char) : (splitlines s).flatten = s :=
  (splitlines_props s).1

lemma mem_splitlines_ne_nil {s l : List Char} (h : l ∈ splitlines s) : l ≠ [] :=
  (splitlines_props s).2.1 l h

lemma goodLines_splitlines {s : List Char} (h : lfOnly s = true) :
    goodLines (splitlines s) = true :=
  (splitlines_props s).2.2 h

lemma processLines_eq (d : List Char) (ls : List (List Char)) :
    processLines d ls = (ls.map (replaceLine d), ls.any lineMatches) := by
  induction ls with
  | nil => rfl
  | cons l ls ih =>
    rw [processLines, ih]
    by_cases h : lineMatches l
    · simp [replaceLine, h]
    · simp only [Bool.not_eq_true] at h
      simp [replaceLine, h]

lemma breakFree_cons {x : Char} {b : List Char} (h : breakFree (x :: b) = true) :
    isLineBreak x = false ∧ breakFree b = true := by
  rw [breakFree, List.all_cons, Bool.and_eq_true] at h
  exact ⟨by simpa using h.1, h.2⟩

lemma splitlines_body_lf (b t : List Char) (h : breakFree b = true) :
    splitlines (b ++ '\n' :: t) = (b ++ ['\n']) :: splitlines t := by
  induction b with
  | nil => simp [splitlines_lf]
  | cons x b ih =>
    rcases breakFree_cons h with ⟨hx, hb⟩
    rw [List.cons_append, splitlines_nonbreak x _ hx, ih hb]
    simp

lemma splitlines_breakFree (b : List Char) (hne : b ≠ []) (h : breakFree b = true) :
    splitlines b = [b] := by
  induction b with
  | nil => exact absurd rfl hne
  | cons x b ih =>
    rcases breakFree_cons h with ⟨hx, hb⟩
    rw [splitlines_nonbreak x b hx]
    rcases b with _ | ⟨y, b2⟩
    · rw [splitlines_nil]
    · rw [ih (by simp) hb]

lemma getLast?_mem {l : List Char} {c : Char} (h : l.getLast? = some c) : c ∈ l := by
  rcases List.mem_getLast?_eq_getLast (Option.mem_def.mpr h) with ⟨hne, he⟩
  subst he
  exact List.getLast_mem hne

lemma splitlines_flatten_of_goodLines (ls : List (List Char))
    (h : goodLines ls = true) : splitlines ls.flatten = ls := by
  induction ls with
  | nil => simp [splitlines_nil]
  | cons l ls ih =>
    rw [goodLines, Bool.and_eq_true] at h
    rcases h with ⟨h1, h2⟩
    rcases ls with _ | ⟨l2, ls2⟩
    · simp only [List.isEmpty_nil, reduceIte] at h1
      simp only [lastOK, Bool.and_eq_true] at h1
      rcases h1 with ⟨⟨hne', hbf'⟩, hlf'⟩
      have hne : l ≠ [] := by simpa using hne'
      rcases hgl : l.getLast? with _ | c
      · rw [List.getLast?_eq_none_iff] at hgl
        exact absurd hgl hne
      · have hl : l.dropLast ++ [c] = l :=
          List.dropLast_append_getLast? c (Option.mem_def.mpr hgl)
        by_cases hcn : c = '\n'
        · subst hcn
          have : splitlines (l.dropLast ++ '\n' :: ([] : List Char)) =
              (l.dropLast ++ ['\n']) :: splitlines [] :=
            splitlines_body_lf l.dropLast [] hbf'
          rw [splitlines_nil] at this
          simpa [hl] using this
        · have hcb : isLineBreak c = false := by
            rw [lfOnly, List.all_eq_true] at hlf'
            have := hlf' c (getLast?_mem hgl)
            rcases Bool.or_eq_true_iff.mp this with h' | h'
            · simpa using h'
            · exact absurd (by simpa using h') hcn
          have hbfl : breakFree l = true := by
            rw [← hl, breakFree, List.all_append, Bool.and_eq_true]
            refine ⟨hbf', ?_⟩
            simp [hcb]
          simp only [List.flatten_cons, List.flatten_nil, List.append_nil]
          rw [splitlines_breakFree l hne hbfl]
    · simp only [List.isEmpty_cons, Bool.false_eq_true, reduceIte] at h1
      simp only [midOK, Bool.and_eq_true, decide_eq_true_eq] at h1
      rcases h1 with ⟨hg, hbf⟩
      have hl : l.dropLast ++ ['\n'] = l :=
        List.dropLast_append_getLast? '\n' (Option.mem_def.mpr hg)
      have key : splitlines (l.dropLast ++ '\n' :: (l2 :: ls2).flatten) =
          (l.dropLast ++ ['\n']) :: splitlines (l2 :: ls2).flatten :=
        splitlines_body_lf _ _ hbf
      rw [List.flatten_cons, ← hl, List.append_assoc, List.singleton_append, key,
        ih h2, hl]

lemma digit_not_space {c : Char} (h : isAsciiDigit c = true) : isPySpace c = false := by
  rw [isAsciiDigit, Bool.and_eq_true, decide_eq_true_eq, decide_eq_true_eq] at h
  rw [isPySpace]
  simp only [Bool.or_eq_false_iff, Bool.and_eq_false_iff, decide_eq_false_iff_not]
  omega

lemma digit_not_break {c : Char} (h : isAsciiDigit c = true) : isLineBreak c = false := by
  rw [isAsciiDigit, Bool.and_eq_true, decide_eq_true_eq, decide_eq_true_eq] at h
  rw [isLineBreak]
  simp only [Bool.or_eq_false_iff, decide_eq_false_iff_not]
  omega

lemma digit_ne_lf {c : Char} (h : isAsciiDigit c = true) : c ≠ '\n' := by
  intro e
  subst e
  exact absurd h (by decide)

lemma wellFormed_shape {d : List Char} (h : isWellFormedDate d = true) :
    ∃ y1 y2 y3 y4 m1 m2 d1 d2,
      d = [y1, y2, y3, y4, '-', m1, m2, '-', d1, d2] ∧
      isAsciiDigit y1 = true ∧ isAsciiDigit y2 = true ∧ isAsciiDigit y3 = true ∧
      isAsciiDigit y4 = true ∧ isAsciiDigit m1 = true ∧ isAsciiDigit m2 = true ∧
      isAsciiDigit d1 = true ∧ isAsciiDigit d2 = true := by
  unfold isWellFormedDate at h
  split at h
  · rename_i y1 y2 y3 y4 s1 m1 m2 s2 d1 d2
    simp only [Bool.and_eq_true, decide_eq_true_eq] at h
    obtain ⟨⟨⟨⟨⟨⟨⟨⟨⟨h1, h2⟩, h3⟩, h4⟩, h5⟩, h6⟩, h7⟩, h8⟩, h9⟩, h10⟩ := h
    subst h5
    subst h8
    exact ⟨y1, y2, y3, y4, m1, m2, d1, d2, rfl, h1, h2, h3, h4, h6, h7, h9, h10⟩
  · exact absurd h (by simp)

lemma strip_nil : strip [] = [] := rfl

lemma strip_of_nonspace_ends {s : List Char}
    (h1 : ∀ c, s.head? = some c → isPySpace c = false)
    (h2 : ∀ c, s.getLast? = some c → isPySpace c = false) : strip s = s := by
  rcases s with _ | ⟨a, t⟩
  · rfl
  · rw [strip]
    have ha : isPySpace a = false := h1 a rfl
    rw [List.dropWhile_cons]
    simp only [ha, Bool.false_eq_true, reduceIte]
    rcases hgl : (a :: t).getLast? with _ | c
    · rw [List.getLast?_eq_none_iff] at hgl
      cases hgl
    · have hc : isPySpace c = false := h2 c hgl
      have hrev : (a :: t).reverse.head? = some c := by
        rw [List.head?_reverse]
        exact hgl
      rcases he : (a :: t).reverse with _ | ⟨c2, r⟩
      · rw [he] at hrev
        cases hrev
      · rw [he] at hrev
        injection hrev with hc2
        subst hc2
        rw [List.dropWhile_cons]
        simp only [hc, Bool.false_eq_true, reduceIte]
        rw [← he, List.reverse_reverse]

lemma strip_append_lf (s : List Char) : strip (s ++ ['\n']) = strip s := by
  rw [strip, strip]
  rcases e : s.dropWhile isPySpace with _ | ⟨a, t⟩
  · rw [List.dropWhile_append, e]
    decide
  · rw [List.dropWhile_append, e]
    simp only [List.isEmpty_cons, Bool.false_eq_true, reduceIte]
    rw [List.reverse_append]
    simp only [List.reverse_cons, List.reverse_nil, List.nil_append,
      List.singleton_append]
    rw [List.dropWhile_cons]
    simp only [show isPySpace '\n' = true from by decide, reduceIte]

lemma dropLitCI_stampPrefix (x : List Char) :
    dropLitCI "last updated:".toList ("Last updated: ".toList ++ x) =
      some (' ' :: x) := rfl

lemma stamp_body_strip {d : List Char} (hd : isWellFormedDate d = true) :
    strip ("Last updated: ".toList ++ d) = "Last updated: ".toList ++ d := by
  obtain ⟨y1, y2, y3, y4, m1, m2, d1, d2, hdeq, h1, h2, h3, h4, h5, h6, h7, h8⟩ :=
    wellFormed_shape hd
  subst hdeq
  apply strip_of_nonspace_ends
  · intro c hc
    rw [show "Last updated: ".toList = 'L' :: "ast updated: ".toList from rfl,
      List.cons_append, List.head?_cons] at hc
    injection hc with hc
    subst hc
    decide
  · intro c hc
    rw [List.getLast?_append_of_ne_nil _ (by simp)] at hc
    simp only [List.getLast?_cons_cons, List.getLast?_singleton] at hc
    injection hc with hc
    subst hc
    exact digit_not_space h8

lemma matchStamp_stamp_body {d : List Char} (hd : isWellFormedDate d = true) :
    matchStamp ("Last updated: ".toList ++ d) = true := by
  obtain ⟨y1, y2, y3, y4, m1, m2, d1, d2, hdeq, h1, h2, h3, h4, h5, h6, h7, h8⟩ :=
    wellFormed_shape hd
  subst hdeq
  have n1 := digit_not_space h1
  rw [matchStamp, dropLitCI_stampPrefix]
  simp only [List.dropWhile_cons, show isPySpace ' ' = true from by decide,
    reduceIte, n1, Bool.false_eq_true, dropDigits, h1, h2, h3, h4, h5, h6, h7, h8,
    dropDash, show ('-' : Char) = '-' from rfl, List.dropWhile_nil, List.isEmpty_nil]

lemma lineMatches_stamp_body {d : List Char} (hd : isWellFormedDate d = true) :
    lineMatches ("Last updated: ".toList ++ d) = true := by
  rw [lineMatches, stamp_body_strip hd]
  exact matchStamp_stamp_body hd

lemma lineMatches_stamp_lf {d : List Char} (hd : isWellFormedDate d = true) :
    lineMatches ("Last updated: ".toList ++ d ++ ['\n']) = true := by
  rw [lineMatches, strip_append_lf, stamp_body_strip hd]
  exact matchStamp_stamp_body hd

lemma lineMatches_stampLine {d : List Char} (hd : isWellFormedDate d = true) :
    lineMatches (stampLine d) = true := by
  rw [stampLine]
  exact lineMatches_stamp_lf hd

lemma lineMatches_normalize {l d : List Char} (hd : isWellFormedDate d = true) :
    lineMatches (normalize_line l d) = true := by
  rw [normalize_line]
  by_cases h : l.getLast? = some '\n'
  · rw [if_pos h]
    exact lineMatches_stamp_lf hd
  · rw [if_neg h, List.append_nil]
    exact lineMatches_stamp_body hd

lemma getLast?_stamp_body {d : List Char} (hd : isWellFormedDate d = true) :
    ∃ c, ("Last updated: ".toList ++ d).getLast? = some c ∧ isAsciiDigit c = true := by
  obtain ⟨y1, y2, y3, y4, m1, m2, d1, d2, hdeq, h1, h2, h3, h4, h5, h6, h7, h8⟩ :=
    wellFormed_shape hd
  subst hdeq
  refine ⟨d2, ?_, h8⟩
  rw [List.getLast?_append_of_ne_nil _ (by simp)]
  simp only [List.getLast?_cons_cons, List.getLast?_singleton]

lemma normalize_line_stable (l : List Char) {d : List Char}
    (hd : isWellFormedDate d = true) :
    normalize_line (normalize_line l d) d = normalize_line l d := by
  rw [normalize_line, normalize_line]
  by_cases h : l.getLast? = some '\n'
  · rw [if_pos h, List.getLast?_concat, if_pos rfl]
  · rw [if_neg h, List.append_nil]
    obtain ⟨c, hc, hcd⟩ := getLast?_stamp_body hd
    rw [if_neg ?_, List.append_nil]
    rw [hc]
    intro he
    injection he with he
    exact digit_ne_lf hcd he

lemma wellFormed_breakFree {d : List Char} (hd : isWellFormedDate d = true) :
    breakFree d = true := by
  obtain ⟨y1, y2, y3, y4, m1, m2, d1, d2, hdeq, h1, h2, h3, h4, h5, h6, h7, h8⟩ :=
    wellFormed_shape hd
  subst hdeq
  simp only [breakFree, List.all_cons, List.all_nil, Bool.and_eq_true,
    Bool.not_eq_eq_eq_not, Bool.not_true]
  refine ⟨digit_not_break h1, digit_not_break h2, digit_not_break h3,
    digit_not_break h4, by decide, digit_not_break h5, digit_not_break h6,
    by decide, digit_not_break h7, digit_not_break h8, trivial⟩

lemma breakFree_stamp_body {d : List Char} (hd : isWellFormedDate d = true) :
    breakFree ("Last updated: ".toList ++ d) = true := by
  rw [breakFree, List.all_append, Bool.and_eq_true]
  exact ⟨by decide, wellFormed_breakFree hd⟩

lemma breakFree_imp_lfOnly {l : List Char} (h : breakFree l = true) :
    lfOnly l = true := by
  rw [breakFree, List.all_eq_true] at h
  rw [lfOnly, List.all_eq_true]
  intro x hx
  rw [Bool.or_eq_true_iff]
  exact Or.inl (h x hx)

lemma breakFree_dropLast {l : List Char} (h : breakFree l = true) :
    breakFree l.dropLast = true := by
  rw [breakFree, List.all_eq_true] at h ⊢
  intro x hx
  exact h x (List.mem_of_mem_dropLast hx)

lemma midOK_imp_lastOK {l : List Char} (h : midOK l = true) : lastOK l = true := by
  simp only [midOK, Bool.and_eq_true, decide_eq_true_eq] at h
  rcases h with ⟨hg, hbf⟩
  have hne : l ≠ [] := by
    intro e
    subst e
    cases hg
  have hl := List.dropLast_append_getLast? '\n' (Option.mem_def.mpr hg)
  simp only [lastOK, Bool.and_eq_true]
  refine ⟨⟨by simpa using hne, hbf⟩, ?_⟩
  rw [← hl, lfOnly, List.all_append, Bool.and_eq_true]
  exact ⟨breakFree_imp_lfOnly hbf, by decide⟩

lemma midOK_stamp_lf {d : List Char} (hd : isWellFormedDate d = true) :
    midOK ("Last updated: ".toList ++ d ++ ['\n']) = true := by
  simp only [midOK, Bool.and_eq_true, decide_eq_true_eq]
  constructor
  · rw [List.getLast?_concat]
  · rw [List.dropLast_concat]
    exact breakFree_stamp_body hd

lemma lastOK_stamp_body {d : List Char} (hd : isWellFormedDate d = true) :
    lastOK ("Last updated: ".toList ++ d) = true := by
  have hbf := breakFree_stamp_body hd
  simp only [lastOK, Bool.and_eq_true]
  exact ⟨⟨by simp, breakFree_dropLast hbf⟩, breakFree_imp_lfOnly hbf⟩

lemma midOK_replace {l : List Char} (d : List Char) (hd : isWellFormedDate d = true)
    (h : midOK l = true) : midOK (replaceLine d l) = true := by
  rw [replaceLine]
  by_cases hm : lineMatches l
  · rw [if_pos hm, normalize_line]
    have hg : l.getLast? = some '\n' := by
      simp only [midOK, Bool.and_eq_true, decide_eq_true_eq] at h
      exact h.1
    rw [if_pos hg]
    exact midOK_stamp_lf hd
  · rw [if_neg hm]
    exact h

lemma lastOK_replace {l : List Char} (d : List Char) (hd : isWellFormedDate d = true)
    (h : lastOK l = true) : lastOK (replaceLine d l) = true := by
  rw [replaceLine]
  by_cases hm : lineMatches l
  · rw [if_pos hm, normalize_line]
    by_cases hg : l.getLast? = some '\n'
    · rw [if_pos hg]
      exact midOK_imp_lastOK (midOK_stamp_lf hd)
    · rw [if_neg hg, List.append_nil]
      exact lastOK_stamp_body hd
  · rw [if_neg hm]
    exact h

lemma goodLines_map_replace {d : List Char} {ls : List (List Char)}
    (hd : isWellFormedDate d = true) (hg : goodLines ls = true) :
    goodLines (ls.map (replaceLine d)) = true := by
  induction ls with
  | nil => rfl
  | cons l ls ih =>
    rw [goodLines, Bool.and_eq_true] at hg
    rcases hg with ⟨h1, h2⟩
    rw [List.map_cons, goodLines, Bool.and_eq_true]
    have hemp : (ls.map (replaceLine d)).isEmpty = ls.isEmpty := by
      rcases ls with _ | ⟨a, ls2⟩
      · rfl
      · rfl
    refine ⟨?_, ih h2⟩
    rw [hemp]
    rcases e : ls.isEmpty with _ | _
    · rw [e] at h1
      simp only [Bool.false_eq_true, reduceIte] at h1 ⊢
      exact midOK_replace d hd h1
    · rw [e] at h1
      simp only [reduceIte] at h1 ⊢
      exact lastOK_replace d hd h1

lemma flatten_ne_nil {ls : List (List Char)} (hne : ls ≠ [])
    (h : ∀ l ∈ ls, l ≠ []) : ls.flatten ≠ [] := by
  rcases ls with _ | ⟨l, ls⟩
  · exact absurd rfl hne
  · rw [List.flatten_cons]
    intro e
    rcases List.append_eq_nil.mp e with ⟨e1, _⟩
    exact h l (List.mem_cons_self l ls) e1

lemma ensure_flatten : ∀ ls : List (List Char), ls ≠ [] → (∀ l ∈ ls, l ≠ []) →
    (ensureTrailingLF ls).flatten =
      ls.flatten ++ (if ls.flatten.getLast? = some '\n' then [] else ['\n'])
  | [], hne, _ => absurd rfl hne
  | [l], _, _ => by
    rw [ensureTrailingLF]
    simp only [List.isEmpty_nil, reduceIte, List.flatten_cons, List.flatten_nil,
      List.append_nil]
    by_cases h : l.getLast? = some '\n'
    · rw [if_pos h, if_pos h, List.append_nil]
    · rw [if_neg h, if_neg h]
  | l :: l2 :: ls, _, h => by
    have hxne : ∀ x ∈ l2 :: ls, x ≠ [] := fun x hx => h x (List.mem_cons_of_mem l hx)
    have hfne : (l2 :: ls).flatten ≠ [] := flatten_ne_nil (by simp) hxne
    have hgl2 : (l :: l2 :: ls).flatten.getLast? = (l2 :: ls).flatten.getLast? := by
      rw [List.flatten_cons]
      exact List.getLast?_append_of_ne_nil l hfne
    rw [ensureTrailingLF]
    simp only [List.isEmpty_cons, Bool.false_eq_true, reduceIte]
    conv_lhs => rw [List.flatten_cons]
    rw [ensure_flatten (l2 :: ls) (by simp) hxne, hgl2]
    conv_rhs => rw [List.flatten_cons]
    rw [List.append_assoc]

lemma ensure_midOK : ∀ {ls : List (List Char)}, goodLines ls = true →
    ∀ x ∈ ensureTrailingLF ls, midOK x = true := by
  intro ls
  induction ls with
  | nil =>
    intro _ x hx
    cases hx
  | cons l ls ih =>
    intro hg x hx
    rw [goodLines, Bool.and_eq_true] at hg
    rcases hg with ⟨h1, h2⟩
    rw [ensureTrailingLF] at hx
    rcases e : ls.isEmpty with _ | _
    · rw [e] at hx h1
      simp only [Bool.false_eq_true, reduceIte] at hx h1
      rcases List.mem_cons.mp hx with hx | hx
      · subst hx
        exact h1
      · exact ih h2 x hx
    · rw [e] at hx h1
      simp only [reduceIte] at hx h1
      simp only [List.mem_singleton] at hx
      subst hx
      by_cases hgl : l.getLast? = some '\n'
      · rw [if_pos hgl]
        simp only [lastOK, Bool.and_eq_true] at h1
        simp only [midOK, Bool.and_eq_true, decide_eq_true_eq]
        exact ⟨hgl, h1.1.2⟩
      · rw [if_neg hgl]
        simp only [lastOK, Bool.and_eq_true] at h1
        rcases h1 with ⟨⟨hne', hbf⟩, hlf⟩
        have hne : l ≠ [] := by simpa using hne'
        simp only [midOK, Bool.and_eq_true, decide_eq_true_eq]
        constructor
        · rw [List.getLast?_concat]
        · rw [List.dropLast_concat]
          rcases hc : l.getLast? with _ | c
          · rw [List.getLast?_eq_none_iff] at hc
            exact absurd hc hne
          · have hcl : c ≠ '\n' := by
              intro e2
              subst e2
              exact hgl hc
            have hcb : isLineBreak c = false := by
              rw [lfOnly, List.all_eq_true] at hlf
              have := hlf c (getLast?_mem hc)
              rcases Bool.or_eq_true_iff.mp this with h' | h'
              · simpa using h'
              · exact absurd (by simpa using h') hcl
            have hl := List.dropLast_append_getLast? c (Option.mem_def.mpr hc)
            rw [← hl, breakFree, List.all_append, Bool.and_eq_true]
            exact ⟨hbf, by simp [hcb]⟩

lemma goodLines_append_last : ∀ (ms : List (List Char)) (lst : List Char),
    (∀ x ∈ ms, midOK x = true) → lastOK lst = true →
    goodLines (ms ++ [lst]) = true
  | [], lst, _, hl => by
    rw [List.nil_append, goodLines]
    simp only [List.isEmpty_nil, reduceIte, goodLines, Bool.and_true]
    exact hl
  | m :: ms, lst, hm, hl => by
    rw [List.cons_append, goodLines, Bool.and_eq_true]
    constructor
    · have : (ms ++ [lst]).isEmpty = false := by
        rcases ms with _ | _
        · rfl
        · rfl
      rw [this]
      simp only [Bool.false_eq_true, reduceIte]
      exact hm m (List.mem_cons_self m ms)
    · exact goodLines_append_last ms lst
        (fun x hx => hm x (List.mem_cons_of_mem m hx)) hl

lemma updateContent_of_any {o d : List Char}
    (h : (splitlines o).any lineMatches = true) :
    updateContent o d = ((splitlines o).map (replaceLine d)).flatten := by
  rw [updateContent, processLines_eq, h]
  simp

lemma map_replace_id {d : List Char} {ls : List (List Char)}
    (h : ls.any lineMatches = false) : ls.map (replaceLine d) = ls := by
  rw [List.any_eq_false] at h
  have h2 : ∀ a ∈ ls, replaceLine d a = id a := by
    intro a ha
    rw [replaceLine, if_neg (h a ha), id]
  rw [List.map_congr_left h2, List.map_id]

lemma updateContent_of_none {o d : List Char}
    (h : (splitlines o).any lineMatches = false) :
    updateContent o d =
      (ensureTrailingLF (splitlines o)).flatten ++ stampLine d := by
  rw [updateContent, processLines_eq, h]
  simp only [Bool.false_eq_true, reduceIte]
  rw [map_replace_id h, List.flatten_append, List.flatten_cons, List.flatten_nil,
    List.append_nil]

lemma splitlines_updateContent_of_any {o d : List Char} (hlf : lfOnly o = true)
    (hd : isWellFormedDate d = true) (h : (splitlines o).any lineMatches = true) :
    splitlines (updateContent o d) = (splitlines o).map (replaceLine d) := by
  rw [updateContent_of_any h]
  exact splitlines_flatten_of_goodLines _
    (goodLines_map_replace hd (goodLines_splitlines hlf))

lemma splitlines_updateContent_of_none {o d : List Char} (hlf : lfOnly o = true)
    (hd : isWellFormedDate d = true)
    (h : (splitlines o).any lineMatches = false) :
    splitlines (updateContent o d) =
      ensureTrailingLF (splitlines o) ++ [stampLine d] := by
  rw [updateContent_of_none h]
  have he : (ensureTrailingLF (splitlines o)).flatten ++ stampLine d =
      (ensureTrailingLF (splitlines o) ++ [stampLine d]).flatten := by
    rw [List.flatten_append, List.flatten_cons, List.flatten_nil, List.append_nil]
  rw [he]
  exact splitlines_flatten_of_goodLines _
    (goodLines_append_last _ _ (ensure_midOK (goodLines_splitlines hlf))
      (midOK_imp_lastOK (midOK_stamp_lf hd)))

lemma any_matches_map_replace {d : List Char} {ls : List (List Char)}
    (hd : isWellFormedDate d = true) (h : ls.any lineMatches = true) :
    (ls.map (replaceLine d)).any lineMatches = true := by
  rw [List.any_eq_true] at h ⊢
  rcases h with ⟨l, hl, hm⟩
  refine ⟨replaceLine d l, List.mem_map_of_mem _ hl, ?_⟩
  rw [replaceLine, if_pos hm]
  exact lineMatches_normalize hd

lemma replace_replace {d l : List Char} (hd : isWellFormedDate d = true) :
    replaceLine d (replaceLine d l) = replaceLine d l := by
  by_cases hm : lineMatches l
  · have h1 : replaceLine d l = normalize_line l d := by
      rw [replaceLine, if_pos hm]
    rw [h1, replaceLine, if_pos (lineMatches_normalize hd)]
    exact normalize_line_stable l hd
  · have h1 : replaceLine d l = l := by
      rw [replaceLine, if_neg hm]
    rw [h1]
    exact h1

lemma map_replace_stable {d : List Char} {ls : List (List Char)}
    (hd : isWellFormedDate d = true) :
    (ls.map (replaceLine d)).map (replaceLine d) = ls.map (replaceLine d) := by
  rw [List.map_map]
  exact List.map_congr_left (fun a _ => replace_replace hd)

lemma ensure_unmatched {ls : List (List Char)}
    (h : ∀ l ∈ ls, lineMatches l = false) :
    ∀ x ∈ ensureTrailingLF ls, lineMatches x = false := by
  induction ls with
  | nil =>
    intro x hx
    cases hx
  | cons l ls ih =>
    intro x hx
    rw [ensureTrailingLF] at hx
    rcases e : ls.isEmpty with _ | _
    · rw [e] at hx
      simp only [Bool.false_eq_true, reduceIte] at hx
      rcases List.mem_cons.mp hx with hx | hx
      · rw [hx]
        exact h l (List.mem_cons_self l ls)
      · exact ih (fun a ha => h a (List.mem_cons_of_mem l ha)) x hx
    · rw [e] at hx
      simp only [reduceIte, List.mem_singleton] at hx
      subst hx
      by_cases hgl : l.getLast? = some '\n'
      · rw [if_pos hgl]
        exact h l (List.mem_cons_self l ls)
      · rw [if_neg hgl, lineMatches, strip_append_lf]
        exact h l (List.mem_cons_self l ls)

lemma replace_stampLine {d : List Char} (hd : isWellFormedDate d = true) :
    replaceLine d (stampLine d) = stampLine d := by
  have hg : (stampLine d).getLast? = some '\n' := by
    rw [stampLine]
    exact List.getLast?_concat _
  rw [replaceLine, if_pos (lineMatches_stampLine hd), normalize_line, if_pos hg,
    stampLine]

lemma updateContent_stable {o d : List Char} (hlf : lfOnly o = true)
    (hd : isWellFormedDate d = true) :
    updateContent (updateContent o d) d = updateContent o d := by
  by_cases hany : (splitlines o).any lineMatches = true
  · have hs := splitlines_updateContent_of_any hlf hd hany
    have hany2 : (splitlines (updateContent o d)).any lineMatches = true := by
      rw [hs]
      exact any_matches_map_replace hd hany
    rw [updateContent_of_any hany2, hs, map_replace_stable hd]
    exact (updateContent_of_any hany).symm
  · have h0 : (splitlines o).any lineMatches = false := by
      simpa using hany
    have hs := splitlines_updateContent_of_none hlf hd h0
    have hany2 : (splitlines (updateContent o d)).any lineMatches = true := by
      rw [hs, List.any_append, Bool.or_eq_true_iff]
      right
      simp [lineMatches_stampLine hd]
    have hpt : ∀ l ∈ splitlines o, lineMatches l = false := by
      intro l hl
      have := List.any_eq_false.mp h0 l hl
      simpa using this
    have hid : (ensureTrailingLF (splitlines o) ++ [stampLine d]).map
        (replaceLine d) = ensureTrailingLF (splitlines o) ++ [stampLine d] := by
      rw [List.map_append]
      have h1 : (ensureTrailingLF (splitlines o)).map (replaceLine d) =
          ensureTrailingLF (splitlines o) := by
        have h2 : ∀ a ∈ ensureTrailingLF (splitlines o),
            replaceLine d a = id a := by
          intro a ha
          rw [replaceLine, if_neg (by rw [ensure_unmatched hpt a ha]; simp), id]
        rw [List.map_congr_left h2, List.map_id]
      rw [h1, List.map_cons, List.map_nil, replace_stampLine hd]
    rw [updateContent_of_any hany2, hs, hid, updateContent_of_none h0,
      List.flatten_append, List.flatten_cons, List.flatten_nil, List.append_nil]

/-- C1: during the scan, a line is replaced if and only if its
whitespace-trimmed form matches the stamp pattern; a matched line becomes
exactly `"Last updated: " ++ dateStr` followed by `'\n'` precisely when the
source line ended with `'\n'` (per §4, only line-feed terminated lines are
assumed, so the line-break character of a line is its trailing `'\n'`), and
every non-matching line is kept byte-for-byte unchanged, in order. -/
theorem claim_C1 (original dateStr : List Char) :
    processLines dateStr (splitlines original) =
      ((splitlines original).map (fun line =>
        if matchStamp (strip line) then
          "Last updated: ".toList ++ dateStr ++
            (if line.getLast? = some '\n' then ['\n'] else [])
        else line),
       (splitlines original).any (fun line => matchStamp (strip line))) := by
  rw [processLines_eq]
  rfl

/-- C2: when no line of the document matches the stamp pattern, the new
content is the original, plus a `'\n'` appended to the last line exactly
when the document is nonempty and does not already end with `'\n'`,
plus the new final line `"Last updated: " ++ dateStr ++ "\n"`. -/
theorem claim_C2 (original dateStr : List Char)
    (h : (splitlines original).any lineMatches = false) :
    updateContent original dateStr =
      original ++
        (if original.getLast? = some '\n' ∨ original = [] then [] else ['\n']) ++
        stampLine dateStr := by
  rw [updateContent_of_none h]
  rcases heq : splitlines original with _ | ⟨l, ls⟩
  · have ho : original = [] := by
      have hfl := splitlines_flatten original
      rw [heq] at hfl
      simpa using hfl.symm
    subst ho
    simp [heq, ensureTrailingLF]
  · have hne : original ≠ [] := by
      intro e
      subst e
      rw [splitlines_nil] at heq
      cases heq
    have hmem : ∀ x ∈ splitlines original, x ≠ [] :=
      fun x hx => mem_splitlines_ne_nil hx
    rw [ensure_flatten (l :: ls) (by simp) (by rw [← heq]; exact hmem), ← heq,
      splitlines_flatten]
    have hcond : (if original.getLast? = some '\n' ∨ original = []
        then ([] : List Char) else ['\n']) =
        (if original.getLast? = some '\n' then [] else ['\n']) := by
      by_cases hg : original.getLast? = some '\n'
      · rw [if_pos (Or.inl hg), if_pos hg]
      · rw [if_neg hg, if_neg (fun h2 => h2.elim hg hne)]
    rw [hcond]

/-- C3: `update_readme` returns `true` exactly when the recomputed content
differs from the original; it writes exactly when it returns `true`, and the
file afterwards holds the new content when it differs and is untouched
otherwise. -/
theorem claim_C3 (original dateStr : List Char) :
    ((update_readme (some original) dateStr).ret = true ↔
      updateContent original dateStr ≠ original) ∧
    (update_readme (some original) dateStr).wrote =
      (update_readme (some original) dateStr).ret ∧
    (update_readme (some original) dateStr).fileAfter =
      some (if updateContent original dateStr ≠ original
            then updateContent original dateStr else original) := by
  by_cases h : updateContent original dateStr = original
  · simp [update_readme, h]
  · simp [update_readme, h]

/-- C7: a nonexistent target reads as the empty document and an empty
document produces exactly the single line `"Last updated: " ++ dateStr ++
"\n"`; neither case fails, and in both the file is written with exactly
that stamp line. -/
theorem claim_C7 (dateStr : List Char) :
    updateContent [] dateStr = stampLine dateStr ∧
    (update_readme none dateStr).fileAfter = some (stampLine dateStr) ∧
    (update_readme (some []) dateStr).fileAfter = some (stampLine dateStr) := by
  have hsne : stampLine dateStr ≠ [] := by
    rw [stampLine]
    simp
  have h : updateContent [] dateStr = stampLine dateStr := by
    rw [updateContent, splitlines_nil]
    simp [processLines, ensureTrailingLF]
  exact ⟨h, by simp [update_readme, h, hsne], by simp [update_readme, h, hsne]⟩

/-- C8: with a nonexistent target, `main` exits with the nonzero
argparse-error status before invoking the updater and before touching any
file; with an existing target it exits with status 0. -/
theorem claim_C8 (dateStr : List Char) (printDate : Bool) :
    (mainRun none dateStr printDate).exitCode ≠ 0 ∧
    (mainRun none dateStr printDate).ranUpdate = false ∧
    (mainRun none dateStr printDate).fileAfter = none ∧
    ∀ content, (mainRun (some content) dateStr printDate).exitCode = 0 := by
  refine ⟨by simp [mainRun], rfl, rfl, fun content => rfl⟩

/-- C9: splitting a string into lines with the line breaks kept and
concatenating the lines back together reconstructs the original string
exactly, for every input. -/
theorem claim_C9 (s : List Char) : (splitlines s).flatten = s :=
  splitlines_flatten s

/-- C10: the update is deterministic in its inputs: two runs on the same
file content and the same date string produce identical results. -/
theorem claim_C10 (file1 file2 : Option (List Char)) (d1 d2 : List Char)
    (h1 : file1 = file2) (h2 : d1 = d2) :
    update_readme file1 d1 = update_readme file2 d2 := by
  rw [h1, h2]

theorem claim_C10_witness :
    update_readme (some "README".toList) "2026-02-03".toList =
      update_readme (some "README".toList) "2026-02-03".toList :=
  claim_C10 _ _ _ _ rfl rfl

theorem claim_C2_witness :
    updateContent "# Title\n".toList "2026-02-03".toList =
      "# Title\nLast updated: 2026-02-03\n".toList := by
  rw [claim_C2 _ _ (by decide)]
  decide

theorem claim_C4_counterexample :
    isWellFormedDate "2026-02-03".toList = true ∧
    lfOnly "last updated: 2020-01-01\rx".toList = false ∧
    (splitlines (updateContent "last updated: 2020-01-01\rx".toList
      "2026-02-03".toList)).any lineMatches = false := by decide

/-- C4 (amended): for documents whose line breaks are all `'\n'` (the input
class §4 assumes; a carriage-return stamp line can merge with its successor
and defeat the invariant) and a well-formed date string, after the update
the content contains at least one line whose trimmed form matches the stamp
pattern, and every line position that matched before the run holds the new
date string afterwards. -/
theorem claim_C4 (original dateStr : List Char) (hlf : lfOnly original = true)
    (hd : isWellFormedDate dateStr = true) :
    (splitlines (updateContent original dateStr)).any lineMatches = true ∧
    ∀ (i : Nat) (line : List Char), (splitlines original)[i]? = some line →
      lineMatches line = true →
      ∃ line2, (splitlines (updateContent original dateStr))[i]? = some line2 ∧
        dateStr <:+: line2 := by
  by_cases hany : (splitlines original).any lineMatches = true
  · have hs := splitlines_updateContent_of_any hlf hd hany
    constructor
    · rw [hs]
      exact any_matches_map_replace hd hany
    · intro i line hget hm
      rw [hs]
      refine ⟨replaceLine dateStr line, ?_, ?_⟩
      · rw [List.getElem?_map, hget]
        rfl
      · rw [replaceLine, if_pos hm, normalize_line]
        exact ⟨"Last updated: ".toList,
          if line.getLast? = some '\n' then ['\n'] else [], rfl⟩
  · have h0 : (splitlines original).any lineMatches = false := by
      simpa using hany
    constructor
    · rw [splitlines_updateContent_of_none hlf hd h0, List.any_append,
        Bool.or_eq_true_iff]
      right
      simp [lineMatches_stampLine hd]
    · intro i line hget hm
      have hmem : line ∈ splitlines original := List.getElem?_mem hget
      have hf := List.any_eq_false.mp h0 line hmem
      exact absurd hm hf

theorem claim_C4_witness :
    (splitlines (updateContent "# hi\nLast updated: 2020-01-01\n".toList
      "2026-02-03".toList)).any lineMatches = true :=
  (claim_C4 _ _ (by decide) (by decide)).1

theorem claim_C5_counterexample :
    (update_readme (some "Last updated: 2026-02-03\n".toList)
      "2026-02-03".toList).ret = false ∧
    (update_readme (update_readme (some "last updated: 2020-01-01\rx".toList)
      "2026-02-03".toList).fileAfter "2026-02-03".toList).ret = true := by decide

/-- C5 (amended): for LF-only documents and a well-formed date string,
the first call returns `true` exactly when the recomputed content differs
from the original (an already up-to-date file yields `false` immediately),
and the second call in succession returns `false`, performs no write, and
leaves the content identical to the content after the first call. -/
theorem claim_C5 (original dateStr : List Char) (hlf : lfOnly original = true)
    (hd : isWellFormedDate dateStr = true) :
    ((update_readme (some original) dateStr).ret = true ↔
      updateContent original dateStr ≠ original) ∧
    (update_readme ((update_readme (some original) dateStr).fileAfter)
        dateStr).ret = false ∧
    (update_readme ((update_readme (some original) dateStr).fileAfter)
        dateStr).wrote = false ∧
    (update_readme ((update_readme (some original) dateStr).fileAfter)
        dateStr).fileAfter = (update_readme (some original) dateStr).fileAfter := by
  have hst := updateContent_stable hlf hd
  by_cases h : updateContent original dateStr = original
  · have h1 : update_readme (some original) dateStr =
        ⟨some original, false, false⟩ := by
      simp [update_readme, h]
    rw [h1]
    simp only [h1]
    simp [update_readme, h]
  · have h1 : update_readme (some original) dateStr =
        ⟨some (updateContent original dateStr), true, true⟩ := by
      simp [update_readme, h]
    rw [h1]
    have h2 : update_readme (some (updateContent original dateStr)) dateStr =
        ⟨some (updateContent original dateStr), false, false⟩ := by
      simp [update_readme, hst]
    simp only [h2]
    simp [h]

theorem claim_C5_witness :
    (update_readme ((update_readme (some "# Title\n".toList)
      "2026-02-03".toList).fileAfter) "2026-02-03".toList).ret = false :=
  (claim_C5 _ _ (by decide) (by decide)).2.1

theorem claim_C6_counterexample :
    ((splitlines "last updated: 2020-01-01\rlast updated: 2021-02-02\r".toList).filter
      lineMatches).length = 2 ∧
    isWellFormedDate "2026-02-03".toList = true ∧
    (splitlines (updateContent
      "last updated: 2020-01-01\rlast updated: 2021-02-02\r".toList
      "2026-02-03".toList)).length = 1 := by decide

/-- C6 (amended): for LF-only documents (per §4; carriage-return stamp lines
merge with their successors and change the line count) with a well-formed
date string and at least two lines matching the stamp pattern, every
matching line is rewritten in place to the same new date, non-matching
lines are untouched, and the output has exactly as many lines as the
input. -/
theorem claim_C6 (original dateStr : List Char) (hlf : lfOnly original = true)
    (hd : isWellFormedDate dateStr = true)
    (htwo : 2 ≤ ((splitlines original).filter lineMatches).length) :
    splitlines (updateContent original dateStr) =
      (splitlines original).map (fun line =>
        if lineMatches line then
          "Last updated: ".toList ++ dateStr ++
            (if line.getLast? = some '\n' then ['\n'] else [])
        else line) ∧
    (splitlines (updateContent original dateStr)).length =
      (splitlines original).length := by
  have hany : (splitlines original).any lineMatches = true := by
    rcases hf : (splitlines original).filter lineMatches with _ | ⟨x, xs⟩
    · rw [hf] at htwo
      simp at htwo
    · have hx : x ∈ (splitlines original).filter lineMatches := by
        rw [hf]
        exact List.mem_cons_self x xs
      rcases List.mem_filter.mp hx with ⟨hmem, hpm⟩
      exact List.any_eq_true.mpr ⟨x, hmem, hpm⟩
  have hs := splitlines_updateContent_of_any hlf hd hany
  constructor
  · rw [hs]
    rfl
  · rw [hs, List.length_map]

theorem claim_C6_witness :
    (splitlines (updateContent
      "Last updated: 2020-01-01\nmid\nlast updated: 2021-05-06\n".toList
      "2026-02-03".toList)).length =
      (splitlines
        "Last updated: 2020-01-01\nmid\nlast updated: 2021-05-06\n".toList).length :=
  (claim_C6 _ _ (by decide) (by decide) (by decide)).2
